import Mathlib

/-!
Verification of the XBBot event-scheduler and ledger engine.

The development shallowly embeds the parts of the repository that the
claims concern:

* `app/utils.py` — `get_next_run_time`, the pure recurrence calculator;
* `app/services/scheduler_jobs.py` — `schedule_event_jobs`,
  `remove_event_jobs`, `handle_payment_for_event`, `process_demurrage`;
* `app/handlers/user_commands.py` — `process_transfer`;
* `app/database.py` — the ledger tables and `Database.set_setting`.

Civil time is modelled as whole minutes on an integer timeline in the
fixed-offset Europe/Moscow zone (the code never mixes zones in the core):
an instant `now : ℤ` decomposes into a day number `now / 1440` and a
time-of-day `now % 1440`; day 0 is chosen to be a Monday so that the
Python convention `weekday() = 0` for Monday becomes `day % 7 = 0`.

Monetary amounts are integers counted in units of `0.0001`, matching the
`NUMERIC(18, 4)` columns and the `quantize(Decimal('0.0001'))` rounding
step of the demurrage processor.
-/

/-- The events.event_type column: CHECK(event_type IN ('recurring', 'single')). -/
inductive EventType where
  | single
  | recurring
deriving DecidableEq, Repr

/--
Embedding of `get_next_run_time` (`app/utils.py`, v1.5.6).

* `single`: `if event_date and event_date > now: return event_date` else `None`;
* `recurring` (needs `weekday is not None and event_time is not None`):
  `days_ahead = weekday - now.weekday()`; if negative add 7; if zero and
  `now.time() >= event_time` set it to 7; result is the target date
  combined with `event_time`;
* any other combination returns `None`.

The `last_run` parameter is accepted (with the source's default) and,
exactly as in the source, never read.
-/
def getNextRunTime (eventType : EventType) (eventDate : Option ℤ)
    (weekday : Option ℤ) (eventTime : Option ℤ) (lastRun : Option ℤ)
    (now : ℤ) : Option ℤ :=
  match eventType with
  | .single =>
    match eventDate with
    | some d => if now < d then some d else none
    | none => none
  | .recurring =>
    match weekday, eventTime with
    | some w, some et =>
      let todayWeekday := (now / 1440) % 7
      let daysAhead0 := w - todayWeekday
      let daysAhead :=
        if daysAhead0 < 0 then daysAhead0 + 7
        else if daysAhead0 = 0 ∧ et ≤ now % 1440 then 7
        else daysAhead0
      some ((now / 1440 + daysAhead) * 1440 + et)
    | _, _ => none

/-- C3: For every recurring event with a weekday `w ∈ [0, 7)` and a
time-of-day `et` (minutes, `0 ≤ et < 1440`), `get_next_run_time` returns a
result that is strictly greater than `now`, lands exactly at time-of-day
`et` on a day whose weekday is `w`, lies within the next seven days, and
falls on today precisely when today has weekday `w` and `et` has not yet
passed; moreover, in the spec's scenario (weekday = Monday = day 0,
event time 10:00 = minute 600), "now" = Monday 09:00 yields this Monday
10:00 and "now" = Monday 11:00 yields next Monday 10:00. -/
theorem recurring_next_run_strictly_future (now w et : ℤ)
    (hw0 : 0 ≤ w) (hw7 : w < 7) (het0 : 0 ≤ et) (het : et < 1440) :
    ∃ r, getNextRunTime .recurring none (some w) (some et) none now = some r ∧
      now < r ∧
      r % 1440 = et ∧
      (r / 1440) % 7 = w ∧
      now / 1440 ≤ r / 1440 ∧
      r / 1440 ≤ now / 1440 + 7 ∧
      (r / 1440 = now / 1440 ↔ ((now / 1440) % 7 = w ∧ now % 1440 < et)) ∧
      getNextRunTime .recurring none (some 0) (some 600) none 540 = some 600 ∧
      getNextRunTime .recurring none (some 0) (some 600) none 660 = some 10680 := by
  refine ⟨(now / 1440 +
      (if w - (now / 1440) % 7 < 0 then w - (now / 1440) % 7 + 7
       else if w - (now / 1440) % 7 = 0 ∧ et ≤ now % 1440 then 7
       else w - (now / 1440) % 7)) * 1440 + et,
    rfl, ?_, ?_, ?_, ?_, ?_, ?_, by decide, by decide⟩ <;>
  · split_ifs <;> omega

/-- Witness for C3 at the spec scenario: weekday Monday (0), event time
10:00 (minute 600), "now" Monday 09:00 (minute 540 of day 0). -/
theorem recurring_next_run_strictly_future_witness :
    ∃ r, getNextRunTime .recurring none (some 0) (some 600) none 540 = some r ∧
      540 < r ∧
      r % 1440 = 600 ∧
      (r / 1440) % 7 = 0 ∧
      540 / 1440 ≤ r / 1440 ∧
      r / 1440 ≤ 540 / 1440 + 7 ∧
      (r / 1440 = 540 / 1440 ↔ ((540 : ℤ) / 1440 % 7 = 0 ∧ (540 : ℤ) % 1440 < 600)) ∧
      getNextRunTime .recurring none (some 0) (some 600) none 540 = some 600 ∧
      getNextRunTime .recurring none (some 0) (some 600) none 660 = some 10680 :=
  recurring_next_run_strictly_future 540 0 600 (by decide) (by decide)
    (by decide) (by decide)

/-- C9: The recurring branch of `get_next_run_time` never reads
`last_run`: for any two values of that argument (including `None`) and
identical remaining inputs and the same "now", the results coincide, so a
missed fire is skipped rather than caught up. -/
theorem recurring_next_run_ignores_last_run (eventDate : Option ℤ)
    (weekday eventTime : Option ℤ) (lastRun₁ lastRun₂ : Option ℤ) (now : ℤ) :
    getNextRunTime .recurring eventDate weekday eventTime lastRun₁ now =
      getNextRunTime .recurring eventDate weekday eventTime lastRun₂ now := rfl

/-- Transaction `type` column values (spec §3; `INSERT INTO transactions`
sites in the handlers and scheduler jobs). -/
inductive TxType where
  | manualAdd
  | manualRem
  | transfer
  | fundPayment
  | welcomeBonus
  | topUp
  | eventFee
  | demurrage
deriving DecidableEq, Repr

/-- A row of the `users` table (the columns the core mutates). `balance`
is in units of 0.0001 (`NUMERIC(18, 4)`). The fund account is the row
with `id = 0` and `telegram_id = 0` created by `init_db`. -/
structure UserRec where
  id : ℕ
  telegramId : ℤ
  balance : ℤ
  txCount : ℕ
deriving DecidableEq, Repr

/-- A row of the append-only `transactions` table (the columns the claims
observe; `comment` and `created_at` carry no ledger content). -/
structure TxRec where
  fromUser : ℕ
  toUser : ℕ
  amount : ℤ
  txType : TxType
deriving DecidableEq, Repr

/-- The database state the claims are about: `users`,
`user_subscriptions` (pairs `(user_id, activity_id)`), `transactions`,
and the demurrage settings at their parsed types (`process_demurrage`
reads them through `get_setting` and parses with `int`, `strptime`,
`Decimal`; `demurrage_last_run` is a date, held as a day number). -/
structure LedgerState where
  users : List UserRec
  subs : List (ℕ × ℕ)
  txs : List TxRec
  demurrageEnabled : Bool
  demurrageIntervalDays : ℤ
  demurrageLastRun : ℤ
  demurrageRate : ℚ
deriving DecidableEq, Repr

/-- One SQL write issued by the core. The first three run on the
connection `conn` of the enclosing `async with conn.transaction()` block;
`setLastRun` is `db.set_setting('demurrage_last_run', …)`, which in
`Database.set_setting` opens its own connection and commits at once. -/
inductive DbStep where
  | updBalance (uid : ℕ) (delta : ℤ)
  | insertTx (tx : TxRec)
  | incrTxCount (uids : List ℕ)
  | setLastRun (day : ℤ)
deriving DecidableEq, Repr

/-- Whether the step commits on its own connection, outside the enclosing
database transaction (true exactly for `Database.set_setting`). -/
def DbStep.isAutocommit : DbStep → Bool
  | .setLastRun _ => true
  | _ => false

/-- Effect of one write on the database state. `UPDATE users SET balance
= balance ± x WHERE id = …` and `transaction_count = transaction_count +
1 WHERE id IN (…)` address rows by primary key. -/
def applyStep (st : LedgerState) : DbStep → LedgerState
  | .updBalance uid delta =>
    { st with users := st.users.map fun u =>
        if u.id = uid then { u with balance := u.balance + delta } else u }
  | .insertTx tx => { st with txs := st.txs ++ [tx] }
  | .incrTxCount uids =>
    { st with users := st.users.map fun u =>
        if u.id ∈ uids then { u with txCount := u.txCount + 1 } else u }
  | .setLastRun day => { st with demurrageLastRun := day }

/-- Run a write sequence to completion (the enclosing transaction
commits). -/
def runSteps (steps : List DbStep) (st : LedgerState) : LedgerState :=
  steps.foldl applyStep st

/-- Run a write sequence with an error raised at position `k`: the
writes issued on the transaction's connection before the error are
rolled back with it, while autocommit writes (`Database.set_setting`,
which uses its own connection) have already committed and survive.
`k = steps.length` models a failure at COMMIT of the enclosing
transaction itself. -/
def runStepsFailAt (steps : List DbStep) (k : ℕ) (st : LedgerState) : LedgerState :=
  runSteps (((steps.take k).filter (·.isAutocommit))) st

/-- Sum of the `balance` column over all rows of `users` (the conserved
quantity of spec §5 and the money supply shown by `/gdp`). -/
def sumBalances (st : LedgerState) : ℤ :=
  (st.users.map (·.balance)).sum

/-- Balance of the user row with database id `uid` (0 if absent). -/
def balById (st : LedgerState) (uid : ℕ) : ℤ :=
  ((st.users.find? (·.id = uid)).map (·.balance)).getD 0

/-- Transaction counter of the user row with database id `uid`. -/
def txCountById (st : LedgerState) (uid : ℕ) : ℕ :=
  ((st.users.find? (·.id = uid)).map (·.txCount)).getD 0

/-- Number of `transactions` rows of the given type. -/
def countTx (st : LedgerState) (tt : TxType) : ℕ :=
  (st.txs.filter (·.txType = tt)).length

/-- Embedding of `get_user_balance` (`app/utils.py`): the balance of the
user found by telegram id, or 0 when there is no such row. -/
def balanceOfTg (st : LedgerState) (tgId : ℤ) : ℤ :=
  match st.users.find? (·.telegramId = tgId) with
  | some u => u.balance
  | none => 0

/-- The writes of the transfer transaction block in `process_transfer`
(`app/handlers/user_commands.py`, lines 122-137): debit sender, credit
recipient, insert one `transfer` row, increment both counters with one
`UPDATE … WHERE id IN (sender, recipient)`. -/
def transferSteps (senderDbId recipientId : ℕ) (amount : ℤ) : List DbStep :=
  [.updBalance senderDbId (-amount),
   .updBalance recipientId amount,
   .insertTx ⟨senderDbId, recipientId, amount, .transfer⟩,
   .incrTxCount [senderDbId, recipientId]]

/-- Embedding of `process_transfer` (`app/handlers/user_commands.py`):
refuse before any mutation when the sender's balance is below the
amount; otherwise run the transfer writes in one transaction. A missing
sender row makes the source raise inside the transaction (rollback), so
that branch leaves the state unchanged as well. -/
def processTransfer (st : LedgerState) (senderTgId : ℤ) (recipientId : ℕ)
    (amount : ℤ) : LedgerState :=
  if balanceOfTg st senderTgId < amount then st
  else
    match st.users.find? (·.telegramId = senderTgId) with
    | some sender => runSteps (transferSteps sender.id recipientId amount) st
    | none => st

/-- A row of the `events` table joined with its activity (the fields the
core reads). -/
structure EventRec where
  id : ℕ
  activityId : ℕ
  eventType : EventType
  eventDate : Option ℤ
  weekday : Option ℤ
  eventTime : Option ℤ
  cost : ℤ
  reminderTime : Option ℤ
  lastRun : Option ℤ
  isActive : Bool
deriving DecidableEq, Repr

/-- Audience query of `handle_payment_for_event`: for the reserved
activity id 1, all users with `telegram_id != 0`; otherwise the users
joined through `user_subscriptions` on that activity. -/
def audience (st : LedgerState) (activityId : ℕ) : List UserRec :=
  if activityId = 1 then st.users.filter (·.telegramId ≠ 0)
  else st.users.filter fun u => (u.id, activityId) ∈ st.subs

/-- Per-subscriber writes of the payment loop in
`handle_payment_for_event` (`app/services/scheduler_jobs.py`, lines
129-160): debit the member by the fee, insert one `event_fee` row to the
fund (`fund_user_id = 0`), increment the member's counter. The loop
contains no write that credits the fund account and none that increments
the fund's counter. -/
def eventPaymentSteps (subscribers : List UserRec) (fee : ℤ) : List DbStep :=
  subscribers.flatMap fun u =>
    [.updBalance u.id (-fee),
     .insertTx ⟨u.id, 0, fee, .eventFee⟩,
     .incrTxCount [u.id]]

/-- Embedding of `handle_payment_for_event`
(`app/services/scheduler_jobs.py`). Returns the state after the fire and
the telegram ids to which a participation notification send was
attempted. With `fee <= 0` the function returns before resolving the
audience, so nobody is notified; with no subscribers it likewise returns;
otherwise it runs all per-member writes in one transaction and attempts
one notification per member. -/
def handlePaymentForEvent (st : LedgerState) (ev : EventRec) :
    LedgerState × List ℤ :=
  if ev.cost ≤ 0 then (st, [])
  else
    let subscribers := audience st ev.activityId
    if subscribers.isEmpty then (st, [])
    else (runSteps (eventPaymentSteps subscribers ev.cost) st,
      subscribers.map (·.telegramId))

/-- C10: If the sender's balance is strictly below the transfer amount,
`process_transfer` refuses before any mutation: the database state is
unchanged — no balance moves, no transaction row, no counter increment —
and no grace-credit path exists in the function that could let the
transfer overdraw. -/
theorem transfer_insufficient_balance_is_noop (st : LedgerState)
    (senderTgId : ℤ) (recipientId : ℕ) (amount : ℤ)
    (h : balanceOfTg st senderTgId < amount) :
    processTransfer st senderTgId recipientId amount = st := by
  simp [processTransfer, h]

/-- Witness for C10: a sender holding 50.0000 trying to send 100.0000 is
refused and the state is untouched. -/
theorem transfer_insufficient_balance_is_noop_witness :
    processTransfer
      ⟨[⟨0, 0, 0, 0⟩, ⟨1, 7, 500000, 0⟩, ⟨2, 8, 0, 0⟩], [], [], false, 1, 0, 0⟩
      7 2 1000000 =
      ⟨[⟨0, 0, 0, 0⟩, ⟨1, 7, 500000, 0⟩, ⟨2, 8, 0, 0⟩], [], [], false, 1, 0, 0⟩ :=
  transfer_insufficient_balance_is_noop _ 7 2 1000000 (by decide)

/-- Concrete ledger for C8: the fund row and one ordinary user with
telegram id 10. -/
def c8State : LedgerState :=
  ⟨[⟨0, 0, 0, 0⟩, ⟨1, 10, 200000, 0⟩], [], [], false, 1, 0, 0⟩

/-- Concrete zero-cost event on the reserved activity 1 for C8. -/
def c8Event : EventRec :=
  ⟨4, 1, .recurring, none, some 0, some 600, 0, none, none, true⟩

/-- Counterexample to C8 as stated: when an event with cost 0 fires,
`handle_payment_for_event` returns at the `fee <= 0` guard before the
audience is even resolved, so the notification list is empty although the
audience contains the user with telegram id 10 — the claim that every
audience member still receives the participation notification is false. -/
theorem zero_cost_event_notifies_counterexample :
    (handlePaymentForEvent c8State c8Event).2 = [] ∧
    (audience c8State c8Event.activityId).map (·.telegramId) = [10] ∧
    (handlePaymentForEvent c8State c8Event).2 ≠
      (audience c8State c8Event.activityId).map (·.telegramId) := by decide

/-- C8 (amended): when an event with cost 0 fires, the payment processor
records no transactions and changes no balances, and it also sends no
participation notifications — it returns before resolving the audience. -/
theorem zero_cost_event_is_full_noop (st : LedgerState) (ev : EventRec)
    (h : ev.cost = 0) :
    handlePaymentForEvent st ev = (st, []) := by
  simp [handlePaymentForEvent, h]

/-- Witness for the amended C8 on the concrete zero-cost event. -/
theorem zero_cost_event_is_full_noop_witness :
    handlePaymentForEvent c8State c8Event = (c8State, []) :=
  zero_cost_event_is_full_noop c8State c8Event (by decide)

/-- Concrete ledger for C1: the fund row (id 0) and three ordinary users
holding 100.0000 each (units of 0.0001). -/
def c1State : LedgerState :=
  ⟨[⟨0, 0, 0, 0⟩, ⟨1, 1, 1000000, 0⟩, ⟨2, 2, 1000000, 0⟩, ⟨3, 3, 1000000, 0⟩],
   [], [], false, 1, 0, 0⟩

/-- Concrete event for C1: cost 50.0000 on the reserved general activity
(id 1), so the audience is all three non-system users. -/
def c1Event : EventRec :=
  ⟨5, 1, .recurring, none, some 0, some 600, 500000, none, none, true⟩

/-- State after the C1 event fires. -/
def c1After : LedgerState := (handlePaymentForEvent c1State c1Event).1

/-- C1 (code evaluated at the failing input): firing a cost-50 event on
the general activity with three non-system users debits each member by 50
and inserts three `event_fee` rows addressed to the fund, and increments
each member's counter — but the fund balance stays 0 instead of rising by
150, the fund's transaction counter stays 0, and the money supply shrinks
by 150: `handle_payment_for_event` contains no write crediting the fund.
The claim's fund-credit and fund-counter conclusions are false on the
code. -/
theorem event_fee_fund_never_credited :
    balById c1After 0 = 0 ∧
    balById c1After 1 = 500000 ∧
    balById c1After 2 = 500000 ∧
    balById c1After 3 = 500000 ∧
    countTx c1After .eventFee = 3 ∧
    txCountById c1After 0 = 0 ∧
    txCountById c1After 1 = 1 ∧
    txCountById c1After 2 = 1 ∧
    txCountById c1After 3 = 1 ∧
    sumBalances c1After = sumBalances c1State - 1500000 := by decide

/-- Balance delta a single write applies to the row with id `uid`. -/
def stepDelta (s : DbStep) (uid : ℕ) : ℤ :=
  match s with
  | .updBalance tgt d => if uid = tgt then d else 0
  | _ => 0

/-- Counter increment a single write applies to the row with id `uid`. -/
def stepIncr (s : DbStep) (uid : ℕ) : ℕ :=
  match s with
  | .incrTxCount uids => if uid ∈ uids then 1 else 0
  | _ => 0

/-- Total balance delta a write sequence applies to the row `uid`. -/
def stepsDelta (l : List DbStep) (uid : ℕ) : ℤ :=
  (l.map (stepDelta · uid)).sum

/-- Total counter increment a write sequence applies to the row `uid`. -/
def stepsIncr (l : List DbStep) (uid : ℕ) : ℕ :=
  (l.map (stepIncr · uid)).sum

/-- The transaction rows a write sequence appends, in order. -/
def stepsTxs (l : List DbStep) : List TxRec :=
  l.filterMap fun s =>
    match s with
    | .insertTx t => some t
    | _ => none

/-- The `demurrage_last_run` value after a write sequence, starting from
`d0`. -/
def lastRunOf (l : List DbStep) (d0 : ℤ) : ℤ :=
  l.foldl (fun a s => match s with | .setLastRun d => d | _ => a) d0

/-- A user row after receiving a balance delta and a counter increment. -/
def updUser (u : UserRec) (d : ℤ) (n : ℕ) : UserRec :=
  { u with balance := u.balance + d, txCount := u.txCount + n }

theorem updUser_zero (u : UserRec) : updUser u 0 0 = u := by
  cases u; simp [updUser]

theorem updUser_updUser (u : UserRec) (d₁ : ℤ) (n₁ : ℕ) (d₂ : ℤ) (n₂ : ℕ) :
    updUser (updUser u d₁ n₁) d₂ n₂ = updUser u (d₁ + d₂) (n₁ + n₂) := by
  cases u; simp [updUser, add_assoc]

theorem updUser_id (u : UserRec) (d : ℤ) (n : ℕ) : (updUser u d n).id = u.id := rfl

theorem stepsDelta_cons (s : DbStep) (l : List DbStep) (uid : ℕ) :
    stepsDelta (s :: l) uid = stepDelta s uid + stepsDelta l uid := by
  simp [stepsDelta]

theorem stepsIncr_cons (s : DbStep) (l : List DbStep) (uid : ℕ) :
    stepsIncr (s :: l) uid = stepIncr s uid + stepsIncr l uid := by
  simp [stepsIncr]

theorem stepsTxs_cons (s : DbStep) (l : List DbStep) :
    stepsTxs (s :: l) = stepsTxs [s] ++ stepsTxs l := by
  cases s <;> simp [stepsTxs]

theorem applyStep_users_eq (st : LedgerState) (s : DbStep) :
    (applyStep st s).users =
      st.users.map fun u => updUser u (stepDelta s u.id) (stepIncr s u.id) := by
  cases s with
  | updBalance tgt d =>
    refine List.map_congr_left fun u _ => ?_
    by_cases hc : u.id = tgt <;> cases u <;> simp_all [updUser, stepDelta, stepIncr]
  | insertTx t =>
    exact ((List.map_congr_left fun u _ => by
      simp [stepDelta, stepIncr, updUser_zero]).trans (List.map_id _)).symm
  | incrTxCount uids =>
    refine List.map_congr_left fun u _ => ?_
    by_cases hc : u.id ∈ uids <;> cases u <;> simp_all [updUser, stepDelta, stepIncr]
  | setLastRun d =>
    exact ((List.map_congr_left fun u _ => by
      simp [stepDelta, stepIncr, updUser_zero]).trans (List.map_id _)).symm

theorem applyStep_subs (st : LedgerState) (s : DbStep) :
    (applyStep st s).subs = st.subs := by cases s <;> rfl

theorem applyStep_enabled (st : LedgerState) (s : DbStep) :
    (applyStep st s).demurrageEnabled = st.demurrageEnabled := by cases s <;> rfl

theorem applyStep_interval (st : LedgerState) (s : DbStep) :
    (applyStep st s).demurrageIntervalDays = st.demurrageIntervalDays := by
  cases s <;> rfl

theorem applyStep_rate (st : LedgerState) (s : DbStep) :
    (applyStep st s).demurrageRate = st.demurrageRate := by cases s <;> rfl

theorem applyStep_txs (st : LedgerState) (s : DbStep) :
    (applyStep st s).txs = st.txs ++ stepsTxs [s] := by
  cases s <;> simp [applyStep, stepsTxs]

theorem applyStep_lastRun (st : LedgerState) (s : DbStep) :
    (applyStep st s).demurrageLastRun = lastRunOf [s] st.demurrageLastRun := by
  cases s <;> rfl

/-- Full characterisation of running a write sequence to completion:
every row gets the accumulated delta and counter increment addressed to
its id, the inserted transaction rows are appended in order, and the
last `set_setting('demurrage_last_run', …)` in the sequence wins. -/
theorem runSteps_spec (l : List DbStep) (st : LedgerState) :
    runSteps l st =
      { users := st.users.map fun u => updUser u (stepsDelta l u.id) (stepsIncr l u.id),
        subs := st.subs,
        txs := st.txs ++ stepsTxs l,
        demurrageEnabled := st.demurrageEnabled,
        demurrageIntervalDays := st.demurrageIntervalDays,
        demurrageLastRun := lastRunOf l st.demurrageLastRun,
        demurrageRate := st.demurrageRate } := by
  induction l generalizing st with
  | nil =>
    simp [runSteps, stepsDelta, stepsIncr, stepsTxs, lastRunOf, updUser_zero]
  | cons s l ih =>
    rw [show runSteps (s :: l) st = runSteps l (applyStep st s) from rfl, ih,
      applyStep_users_eq, applyStep_subs, applyStep_txs, applyStep_lastRun,
      applyStep_enabled, applyStep_interval, applyStep_rate, List.map_map]
    congr 1
    · exact List.map_congr_left fun u _ => by
        simp [Function.comp, updUser_updUser, updUser_id, stepsDelta_cons, stepsIncr_cons]
    · rw [List.append_assoc, ← stepsTxs_cons]

/-- Round the fraction `n / d` (for `d > 0`) to the nearest integer with
ties to the even neighbour: Decimal's default `ROUND_HALF_EVEN`, acting
on values expressed in 0.0001 units. `f` is the floor and `r2` twice the
remainder, so `r2 < d` means the fractional part is below one half. -/
def roundHalfEvenFrac (n d : ℤ) : ℤ :=
  let f := n / d
  let r2 := 2 * (n - f * d)
  if r2 < d then f
  else if d < r2 then f + 1
  else if f % 2 = 0 then f else f + 1

/-- Embedding of `demurrage_amount = (balance * rate).quantize(Decimal('0.0001'))`
(`process_demurrage`), with `balance` in 0.0001 units: the product
`balance * rate` is exactly the fraction `(balance * rate.num) /
rate.den`, rounded half-even to a whole number of units. -/
def demurrageAmount (rate : ℚ) (balance : ℤ) : ℤ :=
  roundHalfEvenFrac (balance * rate.num) (rate.den : ℤ)

/-- The snapshot query of `process_demurrage`: `SELECT id, balance FROM
users WHERE balance > 0 AND telegram_id != 0`. -/
def taxedUsers (st : LedgerState) : List UserRec :=
  st.users.filter fun u => 0 < u.balance ∧ u.telegramId ≠ 0

/-- One iteration of the demurrage loop: `continue` when the quantized
amount is ≤ 0, otherwise debit the user and insert one `demurrage` row
addressed to the fund. -/
def demurrageUserSteps (rate : ℚ) (u : UserRec) : List DbStep :=
  if demurrageAmount rate u.balance ≤ 0 then []
  else [.updBalance u.id (-(demurrageAmount rate u.balance)),
        .insertTx ⟨u.id, 0, demurrageAmount rate u.balance, .demurrage⟩]

/-- Embedding of `total_demurrage`: the loop accumulates exactly the amounts it
debits (skipped users contribute nothing). -/
def demurrageTotal (rate : ℚ) (users : List UserRec) : ℤ :=
  (users.map fun u =>
    if demurrageAmount rate u.balance ≤ 0 then 0
    else demurrageAmount rate u.balance).sum

/-- The write sequence of one qualifying demurrage run
(`process_demurrage`, lines 254-285): the per-user loop, then `UPDATE
users SET balance = balance + total WHERE id = 0` guarded by
`total_demurrage > 0`, then `db.set_setting('demurrage_last_run',
today)` — the last being an autocommit write on its own connection. -/
def demurrageSteps (st : LedgerState) (today : ℤ) : List DbStep :=
  ((taxedUsers st).flatMap (demurrageUserSteps st.demurrageRate)) ++
    (if 0 < demurrageTotal st.demurrageRate (taxedUsers st)
     then [.updBalance 0 (demurrageTotal st.demurrageRate (taxedUsers st))]
     else []) ++
    [.setLastRun today]

/-- Embedding of `process_demurrage` (`app/services/scheduler_jobs.py`,
v1.5.5) over the parsed settings: skip when disabled, when fewer whole
days than `demurrage_interval_days` have elapsed since
`demurrage_last_run`, or when the rate is ≤ 0; with nobody to tax, only
advance `demurrage_last_run` to today; otherwise run the write sequence
to completion. -/
def processDemurrage (st : LedgerState) (today : ℤ) : LedgerState :=
  if st.demurrageEnabled = false then st
  else if today - st.demurrageLastRun < st.demurrageIntervalDays then st
  else if st.demurrageRate ≤ 0 then st
  else if (taxedUsers st).isEmpty then { st with demurrageLastRun := today }
  else runSteps (demurrageSteps st today) st

theorem runStepsFailAt_of_no_autocommit (l : List DbStep) (k : ℕ)
    (st : LedgerState) (h : ∀ s ∈ l, s.isAutocommit = false) :
    runStepsFailAt l k st = st := by
  unfold runStepsFailAt
  have hnil : (l.take k).filter (·.isAutocommit) = [] := by
    refine List.filter_eq_nil_iff.mpr fun s hs => ?_
    simp [h s (List.take_subset k l hs)]
  rw [hnil]; rfl

theorem setLastRun_only_users_txs (l : List DbStep) (st : LedgerState)
    (h : ∀ s ∈ l, s.isAutocommit = true) :
    (runSteps l st).users = st.users ∧ (runSteps l st).txs = st.txs := by
  rw [runSteps_spec]
  constructor
  · refine (List.map_congr_left fun u hu => ?_).trans (List.map_id _)
    have hd : stepsDelta l u.id = 0 := by
      refine List.sum_eq_zero fun x hx => ?_
      simp only [List.mem_map] at hx
      obtain ⟨s, hs, rfl⟩ := hx
      have := h s hs
      cases s <;> simp_all [DbStep.isAutocommit, stepDelta]
    have hi : stepsIncr l u.id = 0 := by
      refine List.sum_eq_zero fun x hx => ?_
      simp only [List.mem_map] at hx
      obtain ⟨s, hs, rfl⟩ := hx
      have := h s hs
      cases s <;> simp_all [DbStep.isAutocommit, stepIncr]
    rw [hd, hi, updUser_zero]; rfl
  · have ht : stepsTxs l = [] := by
      refine List.filterMap_eq_nil_iff.mpr fun s hs => ?_
      have := h s hs
      cases s <;> simp_all [DbStep.isAutocommit]
    simp [ht]

theorem runStepsFailAt_users_txs (l : List DbStep) (k : ℕ) (st : LedgerState) :
    (runStepsFailAt l k st).users = st.users ∧
    (runStepsFailAt l k st).txs = st.txs := by
  refine setLastRun_only_users_txs _ _ fun s hs => ?_
  exact (List.mem_filter.mp hs).2

/-- C2: For each atomic balance mutation — a peer transfer, one event's
full payment sweep, one demurrage run — every balance write and
transaction insert is issued on the single enclosing database
transaction's connection, so an error at any position `k` of the write
sequence (including at COMMIT) rolls all of them back: for the transfer
and the event sweep the state is exactly the starting state, and for the
demurrage run the sum of all user balances and the `transactions` table
equal their values before the run started. -/
theorem atomic_mutation_failure_conserves (st : LedgerState) (k : ℕ) :
    (∀ senderDbId recipientId : ℕ, ∀ amount : ℤ,
      runStepsFailAt (transferSteps senderDbId recipientId amount) k st = st) ∧
    (∀ subscribers : List UserRec, ∀ fee : ℤ,
      runStepsFailAt (eventPaymentSteps subscribers fee) k st = st) ∧
    (∀ today : ℤ,
      sumBalances (runStepsFailAt (demurrageSteps st today) k st) = sumBalances st ∧
      (runStepsFailAt (demurrageSteps st today) k st).txs = st.txs) := by
  refine ⟨fun senderDbId recipientId amount => ?_, fun subscribers fee => ?_,
    fun today => ?_⟩
  · refine runStepsFailAt_of_no_autocommit _ _ _ fun s hs => ?_
    simp only [transferSteps, List.mem_cons, List.mem_singleton] at hs
    rcases hs with rfl | rfl | rfl | rfl | h <;> first | rfl | cases h
  · refine runStepsFailAt_of_no_autocommit _ _ _ fun s hs => ?_
    simp only [eventPaymentSteps, List.mem_flatMap, List.mem_cons,
      List.mem_singleton] at hs
    obtain ⟨u, -, hs⟩ := hs
    rcases hs with rfl | rfl | rfl | h <;> first | rfl | cases h
  · obtain ⟨hu, ht⟩ := runStepsFailAt_users_txs (demurrageSteps st today) k st
    exact ⟨by simp [sumBalances, hu], ht⟩

theorem processDemurrage_disabled (st : LedgerState) (today : ℤ)
    (h : st.demurrageEnabled = false) : processDemurrage st today = st := by
  simp [processDemurrage, h]

theorem processDemurrage_interval (st : LedgerState) (today : ℤ)
    (h : today - st.demurrageLastRun < st.demurrageIntervalDays) :
    processDemurrage st today = st := by
  unfold processDemurrage
  split_ifs <;> first | rfl | omega

theorem processDemurrage_rate (st : LedgerState) (today : ℤ)
    (h : st.demurrageRate ≤ 0) : processDemurrage st today = st := by
  unfold processDemurrage
  split_ifs <;> first | rfl | exact absurd h (by assumption)

theorem processDemurrage_no_taxed (st : LedgerState) (today : ℤ)
    (he : st.demurrageEnabled = true)
    (hi : st.demurrageIntervalDays ≤ today - st.demurrageLastRun)
    (hr : 0 < st.demurrageRate) (ht : taxedUsers st = []) :
    processDemurrage st today = { st with demurrageLastRun := today } := by
  unfold processDemurrage
  split_ifs with h1 h2 h3 h4
  · rw [he] at h1; cases h1
  · omega
  · exact absurd h3 (not_le.mpr hr)
  · rfl
  · rw [ht] at h4; exact absurd rfl h4

theorem runSteps_config (l : List DbStep) (st : LedgerState) :
    (runSteps l st).demurrageEnabled = st.demurrageEnabled ∧
    (runSteps l st).demurrageIntervalDays = st.demurrageIntervalDays ∧
    (runSteps l st).demurrageRate = st.demurrageRate := by
  rw [runSteps_spec]; exact ⟨rfl, rfl, rfl⟩

theorem lastRunOf_append_set (l : List DbStep) (d0 today : ℤ) :
    lastRunOf (l ++ [DbStep.setLastRun today]) d0 = today := by
  simp [lastRunOf, List.foldl_append]

theorem demurrageSteps_lastRun (st : LedgerState) (today : ℤ) :
    (runSteps (demurrageSteps st today) st).demurrageLastRun = today := by
  rw [runSteps_spec]
  exact lastRunOf_append_set _ _ _

theorem processDemurrage_run (st : LedgerState) (today : ℤ)
    (h1 : ¬st.demurrageEnabled = false)
    (h2 : ¬today - st.demurrageLastRun < st.demurrageIntervalDays)
    (h3 : ¬st.demurrageRate ≤ 0) (h4 : ¬taxedUsers st = []) :
    processDemurrage st today = runSteps (demurrageSteps st today) st := by
  unfold processDemurrage
  split_ifs with g1
  · exact absurd (List.isEmpty_iff.mp g1) h4
  · rfl

theorem processDemurrage_idem (st : LedgerState) (today : ℤ)
    (hint : 1 ≤ st.demurrageIntervalDays) :
    processDemurrage (processDemurrage st today) today =
      processDemurrage st today := by
  by_cases h1 : st.demurrageEnabled = false
  · rw [processDemurrage_disabled st today h1, processDemurrage_disabled st today h1]
  · by_cases h2 : today - st.demurrageLastRun < st.demurrageIntervalDays
    · rw [processDemurrage_interval st today h2, processDemurrage_interval st today h2]
    · by_cases h3 : st.demurrageRate ≤ 0
      · rw [processDemurrage_rate st today h3, processDemurrage_rate st today h3]
      · by_cases h4 : taxedUsers st = []
        · have he : st.demurrageEnabled = true := by
            revert h1; cases st.demurrageEnabled <;> simp
          rw [processDemurrage_no_taxed st today he (by omega) (not_le.mp h3) h4]
          exact processDemurrage_interval _ today
            (by show today - today < st.demurrageIntervalDays; omega)
        · rw [processDemurrage_run st today h1 h2 h3 h4]
          obtain ⟨he1, hi1, hr1⟩ := runSteps_config (demurrageSteps st today) st
          apply processDemurrage_interval
          rw [demurrageSteps_lastRun, hi1]
          omega

/-- C4: The demurrage processor is a no-op when the feature is disabled,
when fewer whole days than the configured interval have elapsed since
`demurrage_last_run`, or when the rate is ≤ 0; when it qualifies but no
user has a strictly positive balance (the fund excluded), it only
advances `demurrage_last_run` to today; and for a positive interval a
second invocation on the same day is a no-op, so `demurrage_last_run`
advances exactly once per qualifying run. -/
theorem demurrage_noop_and_advance (st : LedgerState) (today : ℤ) :
    (st.demurrageEnabled = false → processDemurrage st today = st) ∧
    (today - st.demurrageLastRun < st.demurrageIntervalDays →
      processDemurrage st today = st) ∧
    (st.demurrageRate ≤ 0 → processDemurrage st today = st) ∧
    (st.demurrageEnabled = true →
      st.demurrageIntervalDays ≤ today - st.demurrageLastRun →
      0 < st.demurrageRate → taxedUsers st = [] →
      processDemurrage st today = { st with demurrageLastRun := today }) ∧
    (1 ≤ st.demurrageIntervalDays →
      processDemurrage (processDemurrage st today) today =
        processDemurrage st today) :=
  ⟨processDemurrage_disabled st today, processDemurrage_interval st today,
   processDemurrage_rate st today, processDemurrage_no_taxed st today,
   processDemurrage_idem st today⟩

/-- Ledger for the C4 witness, branch "enabled and due but nobody to
tax": only the fund row exists, the feature is on, interval 1 day, last
run on day 0, rate 0.01. -/
def c4StateA : LedgerState := ⟨[⟨0, 0, 500000, 3⟩], [], [], true, 1, 0, mkRat 1 100⟩

/-- Ledger for the C4 witness, branch "feature disabled". -/
def c4StateB : LedgerState :=
  ⟨[⟨0, 0, 0, 0⟩, ⟨1, 5, 10000, 0⟩], [], [], false, 1, 0, mkRat 1 100⟩

/-- Witness for C4: a due run with nobody to tax only advances
`demurrage_last_run` to today (day 5), a second run the same day is a
no-op, and a disabled run changes nothing. -/
theorem demurrage_noop_and_advance_witness :
    processDemurrage c4StateA 5 = { c4StateA with demurrageLastRun := 5 } ∧
    processDemurrage (processDemurrage c4StateA 5) 5 =
      processDemurrage c4StateA 5 ∧
    processDemurrage c4StateB 3 = c4StateB :=
  ⟨(demurrage_noop_and_advance c4StateA 5).2.2.2.1 rfl (by decide) (by decide)
      (by decide),
   (demurrage_noop_and_advance c4StateA 5).2.2.2.2 (by decide),
   (demurrage_noop_and_advance c4StateB 3).1 rfl⟩

/-- Ledger for C5: feature on, interval 1 day, last run day 0, rate
0.01, the fund and one user holding 1000.0000. -/
def c5State : LedgerState :=
  ⟨[⟨0, 0, 0, 0⟩, ⟨1, 5, 10000000, 0⟩], [], [], true, 1, 0, mkRat 1 100⟩

/-- C5 (code evaluated at the failing input): in a qualifying demurrage
run, `db.set_setting('demurrage_last_run', …)` commits on its own
connection, so when the enclosing transaction fails at COMMIT (error
position = length of the write sequence) every balance write is rolled
back yet `demurrage_last_run` remains advanced to day 10 — although the
completed run would have debited user 1 by 10.0000 and credited the fund
by 10.0000. The debits, the fund credit and the `demurrage_last_run`
update therefore do not take effect in one atomic unit, contradicting
the claim. -/
theorem demurrage_last_run_not_atomic :
    (runStepsFailAt (demurrageSteps c5State 10)
        (demurrageSteps c5State 10).length c5State).demurrageLastRun = 10 ∧
    (runStepsFailAt (demurrageSteps c5State 10)
        (demurrageSteps c5State 10).length c5State).users = c5State.users ∧
    c5State.demurrageLastRun = 0 ∧
    balById (processDemurrage c5State 10) 1 = 9900000 ∧
    balById (processDemurrage c5State 10) 0 = 100000 := by decide

theorem stepsDelta_append (l₁ l₂ : List DbStep) (uid : ℕ) :
    stepsDelta (l₁ ++ l₂) uid = stepsDelta l₁ uid + stepsDelta l₂ uid := by
  simp [stepsDelta]

theorem stepsIncr_append (l₁ l₂ : List DbStep) (uid : ℕ) :
    stepsIncr (l₁ ++ l₂) uid = stepsIncr l₁ uid + stepsIncr l₂ uid := by
  simp [stepsIncr]

theorem stepsTxs_append (l₁ l₂ : List DbStep) :
    stepsTxs (l₁ ++ l₂) = stepsTxs l₁ ++ stepsTxs l₂ := by
  simp [stepsTxs]

theorem stepsDelta_flatMap (f : UserRec → List DbStep) (l : List UserRec)
    (uid : ℕ) :
    stepsDelta (l.flatMap f) uid = (l.map fun v => stepsDelta (f v) uid).sum := by
  induction l with
  | nil => simp [stepsDelta]
  | cons h t ih => simp [List.flatMap_cons, stepsDelta_append, ih]

theorem stepsIncr_flatMap (f : UserRec → List DbStep) (l : List UserRec)
    (uid : ℕ) :
    stepsIncr (l.flatMap f) uid = (l.map fun v => stepsIncr (f v) uid).sum := by
  induction l with
  | nil => simp [stepsIncr]
  | cons h t ih => simp [List.flatMap_cons, stepsIncr_append, ih]

theorem stepsTxs_flatMap (f : UserRec → List DbStep) (l : List UserRec) :
    stepsTxs (l.flatMap f) = l.flatMap fun v => stepsTxs (f v) := by
  induction l with
  | nil => simp [stepsTxs]
  | cons h t ih => simp [List.flatMap_cons, stepsTxs_append, ih]

theorem sum_map_add (l : List UserRec) (f g : UserRec → ℤ) :
    (l.map fun x => f x + g x).sum = (l.map f).sum + (l.map g).sum := by
  induction l with
  | nil => simp
  | cons h t ih => simp [ih]; ring

theorem sum_map_neg (l : List UserRec) (f : UserRec → ℤ) :
    (l.map fun x => -f x).sum = -(l.map f).sum := by
  induction l with
  | nil => simp
  | cons h t ih => simp [ih]; ring

theorem sum_ite_filter (l : List UserRec) (p : UserRec → Bool) (f : UserRec → ℤ) :
    (l.map fun u => if p u then f u else 0).sum = ((l.filter p).map f).sum := by
  induction l with
  | nil => simp
  | cons h t ih =>
    by_cases hp : p h <;> simp [List.filter_cons, hp, ih]

theorem sum_ite_id_filter (users : List UserRec)
    (hnodup : (users.map (·.id)).Nodup) (p : UserRec → Bool)
    (g : UserRec → ℤ) (u : UserRec) (hu : u ∈ users) :
    (((users.filter p).map fun v => if u.id = v.id then g v else 0).sum) =
      if p u then g u else 0 := by
  induction users with
  | nil => cases hu
  | cons h t ih =>
    rw [List.map_cons, List.nodup_cons] at hnodup
    obtain ⟨hh, ht⟩ := hnodup
    rcases List.mem_cons.mp hu with rfl | hut
    · have hzero : ∀ v ∈ t.filter p, (if u.id = v.id then g v else 0) = 0 := by
        intro v hv
        have hvmem : v ∈ t := List.mem_of_mem_filter hv
        have : v.id ∈ t.map (·.id) := List.mem_map_of_mem _ hvmem
        rw [if_neg]
        intro hcontra
        exact hh (hcontra ▸ this)
      by_cases hp : p u
      · simp only [List.filter_cons, hp, if_true, List.map_cons, List.sum_cons,
          if_pos rfl]
        rw [List.sum_eq_zero (by
          intro x hx
          simp only [List.mem_map] at hx
          obtain ⟨v, hv, rfl⟩ := hx
          exact hzero v hv)]
        simp
      · simp only [List.filter_cons, hp, if_false]
        rw [List.sum_eq_zero (by
          intro x hx
          simp only [List.mem_map] at hx
          obtain ⟨v, hv, rfl⟩ := hx
          exact hzero v hv)]
        simp [hp]
    · have hne : u.id ≠ h.id := by
        intro hcontra
        exact hh (hcontra ▸ List.mem_map_of_mem _ hut)
      by_cases hp : p h
      · simp only [List.filter_cons, hp, if_true, List.map_cons, List.sum_cons,
          if_neg hne, zero_add]
        exact ih ht hut
      · simp only [List.filter_cons, hp, if_false]
        exact ih ht hut

theorem sum_ite_id_unique (users : List UserRec)
    (hnodup : (users.map (·.id)).Nodup) (u0 : UserRec) (hu0 : u0 ∈ users)
    (n : ℕ) (hn : u0.id = n) (c : ℤ) :
    ((users.map fun v => if v.id = n then c else 0).sum) = c := by
  induction users with
  | nil => cases hu0
  | cons h t ih =>
    rw [List.map_cons, List.nodup_cons] at hnodup
    obtain ⟨hh, ht⟩ := hnodup
    rcases List.mem_cons.mp hu0 with rfl | hut
    · simp only [List.map_cons, List.sum_cons, hn, if_pos rfl]
      rw [List.sum_eq_zero (by
        intro x hx
        simp only [List.mem_map] at hx
        obtain ⟨v, hv, rfl⟩ := hx
        rw [if_neg]
        intro hcontra
        exact hh (hn ▸ hcontra ▸ List.mem_map_of_mem _ hv))]
      simp
    · have hne : h.id ≠ n := by
        intro hcontra
        exact hh (hcontra ▸ hn ▸ List.mem_map_of_mem _ hut)
      simp only [List.map_cons, List.sum_cons, if_neg hne, zero_add]
      exact ih ht hut

theorem demurrageUserSteps_delta (rate : ℚ) (v : UserRec) (uid : ℕ) :
    stepsDelta (demurrageUserSteps rate v) uid =
      if uid = v.id then
        (if demurrageAmount rate v.balance ≤ 0 then 0
         else -(demurrageAmount rate v.balance))
      else 0 := by
  by_cases hle : demurrageAmount rate v.balance ≤ 0
  · simp [demurrageUserSteps, hle, stepsDelta]
  · by_cases hid : uid = v.id <;>
      simp [demurrageUserSteps, hle, hid, stepsDelta, stepDelta]

theorem demurrageUserSteps_incr (rate : ℚ) (v : UserRec) (uid : ℕ) :
    stepsIncr (demurrageUserSteps rate v) uid = 0 := by
  by_cases hle : demurrageAmount rate v.balance ≤ 0 <;>
    simp [demurrageUserSteps, hle, stepsIncr, stepIncr]

theorem demurrageUserSteps_txs (rate : ℚ) (v : UserRec) :
    stepsTxs (demurrageUserSteps rate v) =
      if demurrageAmount rate v.balance ≤ 0 then []
      else [⟨v.id, 0, demurrageAmount rate v.balance, .demurrage⟩] := by
  by_cases hle : demurrageAmount rate v.balance ≤ 0 <;>
    simp [demurrageUserSteps, hle, stepsTxs]

theorem demurrageTotal_nonneg (rate : ℚ) (l : List UserRec) :
    0 ≤ demurrageTotal rate l := by
  refine List.sum_nonneg fun x hx => ?_
  simp only [List.mem_map] at hx
  obtain ⟨v, hv, rfl⟩ := hx
  by_cases hle : demurrageAmount rate v.balance ≤ 0 <;> simp [hle] <;> omega

theorem demurrageSteps_incr (st : LedgerState) (today : ℤ) (uid : ℕ) :
    stepsIncr (demurrageSteps st today) uid = 0 := by
  unfold demurrageSteps
  rw [stepsIncr_append, stepsIncr_append, stepsIncr_flatMap]
  have h1 : ((taxedUsers st).map fun v =>
      stepsIncr (demurrageUserSteps st.demurrageRate v) uid).sum = 0 :=
    List.sum_eq_zero (by
      intro x hx
      simp only [List.mem_map] at hx
      obtain ⟨v, hv, rfl⟩ := hx
      exact demurrageUserSteps_incr _ _ _)
  have h2 : stepsIncr
      (if 0 < demurrageTotal st.demurrageRate (taxedUsers st)
       then [DbStep.updBalance 0 (demurrageTotal st.demurrageRate (taxedUsers st))]
       else []) uid = 0 := by
    split_ifs <;> simp [stepsIncr, stepIncr]
  rw [h1, h2]
  simp [stepsIncr, stepIncr]

theorem demurrageSteps_txs_eq (st : LedgerState) (today : ℤ) :
    stepsTxs (demurrageSteps st today) =
      (taxedUsers st).flatMap fun v =>
        if demurrageAmount st.demurrageRate v.balance ≤ 0 then []
        else [⟨v.id, 0, demurrageAmount st.demurrageRate v.balance, .demurrage⟩] := by
  unfold demurrageSteps
  rw [stepsTxs_append, stepsTxs_append, stepsTxs_flatMap]
  have h2 : stepsTxs
      (if 0 < demurrageTotal st.demurrageRate (taxedUsers st)
       then [DbStep.updBalance 0 (demurrageTotal st.demurrageRate (taxedUsers st))]
       else []) = [] := by
    split_ifs <;> simp [stepsTxs]
  have h3 : stepsTxs [DbStep.setLastRun today] = [] := rfl
  rw [h2, h3, List.append_nil, List.append_nil]
  simp only [demurrageUserSteps_txs]

theorem demurrageSteps_delta (st : LedgerState) (today : ℤ) (u : UserRec)
    (hu : u ∈ st.users) (hnodup : (st.users.map (·.id)).Nodup) :
    stepsDelta (demurrageSteps st today) u.id =
      (if 0 < u.balance ∧ u.telegramId ≠ 0 then
         (if demurrageAmount st.demurrageRate u.balance ≤ 0 then 0
          else -(demurrageAmount st.demurrageRate u.balance))
       else 0) +
      (if u.id = 0 then demurrageTotal st.demurrageRate (taxedUsers st) else 0) := by
  unfold demurrageSteps
  rw [stepsDelta_append, stepsDelta_append, stepsDelta_flatMap]
  have h3 : stepsDelta [DbStep.setLastRun today] u.id = 0 := by
    simp [stepsDelta, stepDelta]
  have h2 : stepsDelta
      (if 0 < demurrageTotal st.demurrageRate (taxedUsers st)
       then [DbStep.updBalance 0 (demurrageTotal st.demurrageRate (taxedUsers st))]
       else []) u.id =
      (if u.id = 0 then demurrageTotal st.demurrageRate (taxedUsers st) else 0) := by
    by_cases hpos : 0 < demurrageTotal st.demurrageRate (taxedUsers st)
    · by_cases hid : u.id = 0 <;> simp [hpos, hid, stepsDelta, stepDelta]
    · have h0 : demurrageTotal st.demurrageRate (taxedUsers st) = 0 :=
        le_antisymm (not_lt.mp hpos) (demurrageTotal_nonneg _ _)
      by_cases hid : u.id = 0 <;> simp [hpos, hid, stepsDelta, h0]
  have h1 : ((taxedUsers st).map fun v =>
      stepsDelta (demurrageUserSteps st.demurrageRate v) u.id).sum =
      (if 0 < u.balance ∧ u.telegramId ≠ 0 then
         (if demurrageAmount st.demurrageRate u.balance ≤ 0 then 0
          else -(demurrageAmount st.demurrageRate u.balance))
       else 0) := by
    have hcong : ((taxedUsers st).map fun v =>
        stepsDelta (demurrageUserSteps st.demurrageRate v) u.id) =
        ((taxedUsers st).map fun v =>
          if u.id = v.id then
            (if demurrageAmount st.demurrageRate v.balance ≤ 0 then 0
             else -(demurrageAmount st.demurrageRate v.balance))
          else 0) := by
      simp only [demurrageUserSteps_delta]
    rw [hcong]
    have hfilter := sum_ite_id_filter st.users hnodup
      (fun v => decide (0 < v.balance ∧ v.telegramId ≠ 0))
      (fun v => if demurrageAmount st.demurrageRate v.balance ≤ 0 then 0
        else -(demurrageAmount st.demurrageRate v.balance)) u hu
    simp only [decide_eq_true_eq] at hfilter
    exact hfilter
  rw [h1, h2, h3, add_zero]

/-- C6: In a qualifying demurrage run (enabled, interval elapsed, rate
positive), given well-formed rows (distinct ids; telegram id 0 exactly
for the fund row id 0, which exists): every user with strictly positive
balance other than the fund is debited by `balance * rate` quantized
half-even to 0.0001, exactly one `demurrage` transaction is appended per
affected user (none for a user whose quantized amount is 0), the fund is
credited with the sum of all debits, the total money supply is conserved
by the run, and `demurrage_last_run` is set to today. -/
theorem demurrage_run_taxes_and_conserves (st : LedgerState) (today : ℤ)
    (hen : st.demurrageEnabled = true)
    (hdue : st.demurrageIntervalDays ≤ today - st.demurrageLastRun)
    (hrate : 0 < st.demurrageRate)
    (hnodup : (st.users.map (·.id)).Nodup)
    (hfund : ∀ u ∈ st.users, (u.telegramId = 0 ↔ u.id = 0))
    (hfundmem : ∃ u ∈ st.users, u.id = 0) :
    (processDemurrage st today).users = (st.users.map fun u =>
      if 0 < u.balance ∧ u.telegramId ≠ 0 then
        { u with balance := u.balance -
            (if demurrageAmount st.demurrageRate u.balance ≤ 0 then 0
             else demurrageAmount st.demurrageRate u.balance) }
      else if u.id = 0 then
        { u with balance := u.balance +
            demurrageTotal st.demurrageRate (taxedUsers st) }
      else u) ∧
    (processDemurrage st today).txs = st.txs ++
      ((taxedUsers st).flatMap fun u =>
        if demurrageAmount st.demurrageRate u.balance ≤ 0 then []
        else [⟨u.id, 0, demurrageAmount st.demurrageRate u.balance, .demurrage⟩]) ∧
    sumBalances (processDemurrage st today) = sumBalances st ∧
    (processDemurrage st today).demurrageLastRun = today := by
  by_cases hne : taxedUsers st = []
  · have hres : processDemurrage st today = { st with demurrageLastRun := today } :=
      processDemurrage_no_taxed st today hen hdue hrate hne
    have htot : demurrageTotal st.demurrageRate (taxedUsers st) = 0 := by
      rw [hne]; rfl
    have hq : ∀ u ∈ st.users, ¬(0 < u.balance ∧ u.telegramId ≠ 0) := by
      intro u hu
      have := List.filter_eq_nil_iff.mp hne u hu
      simpa using this
    refine ⟨?_, ?_, ?_, ?_⟩
    · rw [hres]
      show st.users = _
      symm
      refine (List.map_congr_left fun u hu => ?_).trans (List.map_id _)
      rw [if_neg (hq u hu)]
      by_cases hid : u.id = 0
      · rw [if_pos hid, htot]; cases u; simp
      · rw [if_neg hid]; rfl
    · rw [hres, hne]; simp
    · rw [hres]; rfl
    · rw [hres]
  · have hrun : processDemurrage st today = runSteps (demurrageSteps st today) st :=
      processDemurrage_run st today (by simp [hen]) (by omega) (not_le.mpr hrate) hne
    have husers : (processDemurrage st today).users = st.users.map fun u =>
        updUser u (stepsDelta (demurrageSteps st today) u.id)
          (stepsIncr (demurrageSteps st today) u.id) := by
      rw [hrun, runSteps_spec]
    have htxs : (processDemurrage st today).txs =
        st.txs ++ stepsTxs (demurrageSteps st today) := by
      rw [hrun, runSteps_spec]
    have hlr : (processDemurrage st today).demurrageLastRun =
        lastRunOf (demurrageSteps st today) st.demurrageLastRun := by
      rw [hrun, runSteps_spec]
    refine ⟨?_, ?_, ?_, ?_⟩
    · rw [husers]
      refine List.map_congr_left fun u hu => ?_
      rw [demurrageSteps_delta st today u hu hnodup, demurrageSteps_incr]
      by_cases hQ : 0 < u.balance ∧ u.telegramId ≠ 0
      · have hid : u.id ≠ 0 := fun h0 => hQ.2 ((hfund u hu).mpr h0)
        rw [if_pos hQ, if_pos hQ, if_neg hid, add_zero]
        by_cases hle : demurrageAmount st.demurrageRate u.balance ≤ 0
        · rw [if_pos hle, if_pos hle]; cases u; simp [updUser]
        · rw [if_neg hle, if_neg hle]; cases u; simp [updUser, sub_eq_add_neg]
      · rw [if_neg hQ, if_neg hQ, zero_add]
        by_cases hid : u.id = 0
        · rw [if_pos hid, if_pos hid]; cases u; simp [updUser]
        · rw [if_neg hid, if_neg hid]; exact updUser_zero u
    · rw [htxs, demurrageSteps_txs_eq]
    · show sumBalances _ = sumBalances st
      unfold sumBalances
      rw [husers, List.map_map]
      have hbal : (st.users.map fun u =>
          ((updUser u (stepsDelta (demurrageSteps st today) u.id)
            (stepsIncr (demurrageSteps st today) u.id)).balance)) =
          st.users.map fun u => u.balance +
            ((if 0 < u.balance ∧ u.telegramId ≠ 0 then
               (if demurrageAmount st.demurrageRate u.balance ≤ 0 then 0
                else -(demurrageAmount st.demurrageRate u.balance))
             else 0) +
            (if u.id = 0 then demurrageTotal st.demurrageRate (taxedUsers st)
             else 0)) := by
        refine List.map_congr_left fun u hu => ?_
        rw [show (updUser u (stepsDelta (demurrageSteps st today) u.id)
            (stepsIncr (demurrageSteps st today) u.id)).balance =
            u.balance + stepsDelta (demurrageSteps st today) u.id from rfl,
          demurrageSteps_delta st today u hu hnodup]
      show (st.users.map fun u =>
          (updUser u (stepsDelta (demurrageSteps st today) u.id)
            (stepsIncr (demurrageSteps st today) u.id)).balance).sum =
        (st.users.map fun u => u.balance).sum
      rw [hbal, sum_map_add st.users (fun u => u.balance), sum_map_add st.users]
      have hA : (st.users.map fun u =>
          (if 0 < u.balance ∧ u.telegramId ≠ 0 then
            (if demurrageAmount st.demurrageRate u.balance ≤ 0 then 0
             else -(demurrageAmount st.demurrageRate u.balance))
           else 0)).sum =
          -(demurrageTotal st.demurrageRate (taxedUsers st)) := by
        have hAcong : (st.users.map fun u =>
            (if 0 < u.balance ∧ u.telegramId ≠ 0 then
              (if demurrageAmount st.demurrageRate u.balance ≤ 0 then 0
               else -(demurrageAmount st.demurrageRate u.balance))
             else 0)) =
            (st.users.map fun u =>
              if (fun v => decide (0 < v.balance ∧ v.telegramId ≠ 0)) u then
                (if demurrageAmount st.demurrageRate u.balance ≤ 0 then 0
                 else -(demurrageAmount st.demurrageRate u.balance))
              else 0) :=
          List.map_congr_left fun u _ => by
            by_cases hq : 0 < u.balance ∧ u.telegramId ≠ 0 <;> simp [hq]
        rw [hAcong, sum_ite_filter]
        show (((taxedUsers st).map fun u =>
            (if demurrageAmount st.demurrageRate u.balance ≤ 0 then 0
             else -(demurrageAmount st.demurrageRate u.balance))).sum) =
          -(demurrageTotal st.demurrageRate (taxedUsers st))
        have hneg : ((taxedUsers st).map fun u =>
            (if demurrageAmount st.demurrageRate u.balance ≤ 0 then 0
             else -(demurrageAmount st.demurrageRate u.balance))) =
            ((taxedUsers st).map fun u =>
              -(if demurrageAmount st.demurrageRate u.balance ≤ 0 then 0
                else demurrageAmount st.demurrageRate u.balance)) :=
          List.map_congr_left fun u _ => by
            by_cases hle : demurrageAmount st.demurrageRate u.balance ≤ 0 <;>
              simp [hle]
        rw [hneg, sum_map_neg]
        rfl
      have hB : (st.users.map fun u =>
          (if u.id = 0 then demurrageTotal st.demurrageRate (taxedUsers st)
           else 0)).sum = demurrageTotal st.demurrageRate (taxedUsers st) := by
        obtain ⟨u0, hu0m, hu0⟩ := hfundmem
        exact sum_ite_id_unique st.users hnodup u0 hu0m 0 hu0 _
      rw [hA, hB]
      ring
    · rw [hlr]
      unfold demurrageSteps
      exact lastRunOf_append_set _ _ _

/-- Ledger for the C6 witness: the fund and one user holding 1000.0000,
demurrage enabled at rate 0.01, due since day 0. -/
def c6State : LedgerState :=
  ⟨[⟨0, 0, 0, 0⟩, ⟨1, 9, 10000000, 2⟩], [], [], true, 1, 0, mkRat 1 100⟩

/-- Witness for C6 at the spec scenario: rate 0.01, one user at
1000.0000 → that user is debited 10.0000, the fund credited 10.0000, one
`demurrage` row is inserted, the supply is conserved and
`demurrage_last_run` becomes day 7. -/
theorem demurrage_run_taxes_and_conserves_witness :
    (processDemurrage c6State 7).users = (c6State.users.map fun u =>
      if 0 < u.balance ∧ u.telegramId ≠ 0 then
        { u with balance := u.balance -
            (if demurrageAmount c6State.demurrageRate u.balance ≤ 0 then 0
             else demurrageAmount c6State.demurrageRate u.balance) }
      else if u.id = 0 then
        { u with balance := u.balance +
            demurrageTotal c6State.demurrageRate (taxedUsers c6State) }
      else u) ∧
    (processDemurrage c6State 7).txs = c6State.txs ++
      ((taxedUsers c6State).flatMap fun u =>
        if demurrageAmount c6State.demurrageRate u.balance ≤ 0 then []
        else [⟨u.id, 0, demurrageAmount c6State.demurrageRate u.balance,
          .demurrage⟩]) ∧
    sumBalances (processDemurrage c6State 7) = sumBalances c6State ∧
    (processDemurrage c6State 7).demurrageLastRun = 7 :=
  demurrage_run_taxes_and_conserves c6State 7 rfl (by decide) (by decide)
    (by decide) (by decide) ⟨⟨0, 0, 0, 0⟩, by decide, rfl⟩

/-- The two job slots per event; an APScheduler job id
`event_payment_<id>` / `event_reminder_<id>` is exactly a (kind, event
id) pair, the mapping being injective. -/
inductive JobKind where
  | payment
  | reminder
deriving DecidableEq, Repr

/-- One scheduled job: its deterministic id (kind and event id) and its
run date. -/
structure SchedJob where
  kind : JobKind
  eventId : ℕ
  runDate : ℤ
deriving DecidableEq, Repr

/-- Embedding of `remove_event_jobs`: removes the jobs with ids
`event_payment_<id>` and `event_reminder_<id>`, swallowing
`JobLookupError` when a job is absent. Since those two ids are all the
ids an event can own, this removes exactly the jobs keyed by `eventId`. -/
def removeEventJobs (eventId : ℕ) (s : List SchedJob) : List SchedJob :=
  s.filter fun j => j.eventId ≠ eventId

/-- Embedding of `scheduler.add_job(..., id=…)`: appends a job under a fresh id (the
callers below only add after removing the event's jobs, so the id is
never already present). -/
def addJob (j : SchedJob) (s : List SchedJob) : List SchedJob := s ++ [j]

/-- Embedding of `schedule_event_jobs` (`app/services/scheduler_jobs.py`,
lines 20-59): first disarm both job ids of the event, compute the next
run; when there is none or it is `< now`, stop; otherwise add the
payment job at `next_run`, and when `reminder_time` is set and positive
and `next_run - reminder_time` is still strictly in the future, add the
reminder job there. -/
def scheduleEventJobs (now : ℤ) (ev : EventRec) (s : List SchedJob) :
    List SchedJob :=
  let s1 := removeEventJobs ev.id s
  match getNextRunTime ev.eventType ev.eventDate ev.weekday ev.eventTime
    ev.lastRun now with
  | none => s1
  | some nextRun =>
    if nextRun < now then s1
    else
      let s2 := addJob ⟨.payment, ev.id, nextRun⟩ s1
      match ev.reminderTime with
      | some rt =>
        if 0 < rt then
          if now < nextRun - rt then
            addJob ⟨.reminder, ev.id, nextRun - rt⟩ s2
          else s2
        else s2
      | none => s2

theorem removeEventJobs_idem (e : ℕ) (s : List SchedJob) :
    removeEventJobs e (removeEventJobs e s) = removeEventJobs e s := by
  unfold removeEventJobs
  rw [List.filter_filter]
  exact List.filter_congr fun j _ => by simp

theorem removeEventJobs_append (e : ℕ) (s t : List SchedJob) :
    removeEventJobs e (s ++ t) = removeEventJobs e s ++ removeEventJobs e t := by
  simp [removeEventJobs]

theorem removeEventJobs_mem_ne (e : ℕ) (s : List SchedJob) (j : SchedJob)
    (hj : j ∈ removeEventJobs e s) : j.eventId ≠ e := by
  have := (List.mem_filter.mp hj).2
  simpa using this

theorem filter_kind_removeEventJobs (e : ℕ) (s : List SchedJob) (k : JobKind) :
    ((removeEventJobs e s).filter fun j => j.kind = k ∧ j.eventId = e) = [] := by
  refine List.filter_eq_nil_iff.mpr fun j hj => ?_
  simp [removeEventJobs_mem_ne e s j hj]

/-- C7: Arming an event first removes any jobs under its two
deterministic ids, so arming is idempotent — `arm(e); arm(e)` leaves the
same scheduler state as `arm(e)` — and whenever the event is schedulable
(`next_run` exists and is not in the past) the armed state holds exactly
one payment job and at most one reminder job for that event id. -/
theorem schedule_event_jobs_idempotent (now : ℤ) (ev : EventRec)
    (s : List SchedJob) :
    scheduleEventJobs now ev (scheduleEventJobs now ev s) =
      scheduleEventJobs now ev s ∧
    (∀ nr, getNextRunTime ev.eventType ev.eventDate ev.weekday ev.eventTime
        ev.lastRun now = some nr → ¬nr < now →
      ((scheduleEventJobs now ev s).filter fun j =>
        j.kind = JobKind.payment ∧ j.eventId = ev.id).length = 1 ∧
      ((scheduleEventJobs now ev s).filter fun j =>
        j.kind = JobKind.reminder ∧ j.eventId = ev.id).length ≤ 1) := by
  cases hnr : getNextRunTime ev.eventType ev.eventDate ev.weekday ev.eventTime
      ev.lastRun now with
  | none =>
    have h1 : ∀ t, scheduleEventJobs now ev t = removeEventJobs ev.id t := by
      intro t; simp only [scheduleEventJobs, hnr]
    refine ⟨?_, ?_⟩
    · rw [h1, h1, removeEventJobs_idem]
    · intro nr hnreq
      exact absurd hnreq (by simp)
  | some nr0 =>
    by_cases hlt : nr0 < now
    · have h1 : ∀ t, scheduleEventJobs now ev t = removeEventJobs ev.id t := by
        intro t; simp only [scheduleEventJobs, hnr, if_pos hlt]
      refine ⟨?_, ?_⟩
      · rw [h1, h1, removeEventJobs_idem]
      · intro nr hnreq hge
        exact absurd (Option.some.inj hnreq ▸ hlt) hge
    · obtain ⟨rj, hrjdef, hrjprop⟩ : ∃ rj,
          (∀ t, scheduleEventJobs now ev t =
            removeEventJobs ev.id t ++ ⟨JobKind.payment, ev.id, nr0⟩ :: rj) ∧
          (rj = [] ∨ ∃ d, rj = [⟨JobKind.reminder, ev.id, d⟩]) := by
        cases hrt : ev.reminderTime with
        | none =>
          refine ⟨[], fun t => ?_, Or.inl rfl⟩
          simp only [scheduleEventJobs, hnr, hrt, if_neg hlt]
          simp [addJob]
        | some rt =>
          by_cases h0 : 0 < rt
          · by_cases h2 : now < nr0 - rt
            · refine ⟨[⟨JobKind.reminder, ev.id, nr0 - rt⟩], fun t => ?_,
                Or.inr ⟨_, rfl⟩⟩
              simp only [scheduleEventJobs, hnr, hrt, if_neg hlt, if_pos h0,
                if_pos h2]
              simp [addJob]
            · refine ⟨[], fun t => ?_, Or.inl rfl⟩
              simp only [scheduleEventJobs, hnr, hrt, if_neg hlt, if_pos h0,
                if_neg h2]
              simp [addJob]
          · refine ⟨[], fun t => ?_, Or.inl rfl⟩
            simp only [scheduleEventJobs, hnr, hrt, if_neg hlt, if_neg h0]
            simp [addJob]
      refine ⟨?_, ?_⟩
      · rw [hrjdef s, hrjdef]
        have hrm : removeEventJobs ev.id
            (removeEventJobs ev.id s ++ ⟨JobKind.payment, ev.id, nr0⟩ :: rj) =
            removeEventJobs ev.id s := by
          rw [removeEventJobs_append, removeEventJobs_idem]
          have hz : removeEventJobs ev.id
              (⟨JobKind.payment, ev.id, nr0⟩ :: rj) = [] := by
            rcases hrjprop with rfl | ⟨d, rfl⟩ <;> simp [removeEventJobs]
          rw [hz, List.append_nil]
        rw [hrm]
      · intro nr hnreq hge
        rw [hrjdef s]
        constructor
        · rw [List.filter_append, filter_kind_removeEventJobs]
          rcases hrjprop with rfl | ⟨d, rfl⟩ <;> simp
        · rw [List.filter_append, filter_kind_removeEventJobs]
          rcases hrjprop with rfl | ⟨d, rfl⟩ <;> simp

/-- Event for the C7 witness: a single event at minute 10000 with a
30-minute reminder lead time. -/
def c7Event : EventRec :=
  ⟨6, 2, .single, some 10000, none, none, 100, some 30, none, true⟩

/-- Scheduler state for the C7 witness, holding stale jobs of event 6
and an unrelated job of event 3. -/
def c7Sched : List SchedJob :=
  [⟨.payment, 6, 50⟩, ⟨.reminder, 6, 40⟩, ⟨.payment, 3, 77⟩]

/-- Witness for C7: re-arming event 6 at now = 100 is idempotent and
leaves exactly one payment job and at most one reminder job for it. -/
theorem schedule_event_jobs_idempotent_witness :
    (scheduleEventJobs 100 c7Event (scheduleEventJobs 100 c7Event c7Sched) =
      scheduleEventJobs 100 c7Event c7Sched) ∧
    ((scheduleEventJobs 100 c7Event c7Sched).filter fun j =>
      j.kind = JobKind.payment ∧ j.eventId = c7Event.id).length = 1 ∧
    ((scheduleEventJobs 100 c7Event c7Sched).filter fun j =>
      j.kind = JobKind.reminder ∧ j.eventId = c7Event.id).length ≤ 1 :=
  ⟨(schedule_event_jobs_idempotent 100 c7Event c7Sched).1,
   ((schedule_event_jobs_idempotent 100 c7Event c7Sched).2 10000 (by decide)
     (by decide)).1,
   ((schedule_event_jobs_idempotent 100 c7Event c7Sched).2 10000 (by decide)
     (by decide)).2⟩
